import Mathlib

/-!
Verification of the release-computation engine of the `cambi` tool.

The Rust sources are shallowly embedded: strings are lists of characters
(`Str`), pure Rust functions become Lean functions of the same name, and the
two I/O-performing commands (`changelog`, `release`) become functions over an
explicit model of their collaborators (the git history provider and the
remote release store).  All definitions are executable.
-/

set_option maxRecDepth 4000

namespace Cambi

/-- Strings as character lists (Rust `&str` / `String`). -/
abbrev Str := List Char

/-- Coerce a Lean string literal to the model's string type. -/
def lit (s : String) : Str := s.data

deriving instance DecidableEq for Except

/-- Rust `str::starts_with` for a literal pattern. -/
def startsWith : Str → Str → Bool
  | [], _ => true
  | _ :: _, [] => false
  | p :: ps, c :: cs => p == c && startsWith ps cs

/-- Rust `str::contains` for a literal pattern. -/
def containsSub (needle : Str) : Str → Bool
  | [] => startsWith needle []
  | c :: cs => startsWith needle (c :: cs) || containsSub needle cs

/-- Rust `str::split_once`: splits at the first occurrence of `sep`, returning
the text before and after it, or `none` when `sep` does not occur. -/
def splitOnce (sep : Str) : Str → Option (Str × Str)
  | [] => if startsWith sep [] then some ([], []) else none
  | c :: cs =>
    if startsWith sep (c :: cs) then some ([], (c :: cs).drop sep.length)
    else match splitOnce sep cs with
      | some (l, r) => some (c :: l, r)
      | none => none

/-- The Unicode `White_Space` code points: the set used both by Rust's
`str::trim*` family and by the `\s` class of the `regex` crate. -/
def isUnicodeWs (c : Char) : Bool :=
  let n := c.toNat
  (0x09 <= n && n <= 0x0D) || n == 0x20 || n == 0x85 || n == 0xA0 || n == 0x1680 ||
  (0x2000 <= n && n <= 0x200A) || n == 0x2028 || n == 0x2029 || n == 0x202F ||
  n == 0x205F || n == 0x3000

/-- Rust `str::trim_start`. -/
def trimStart (s : Str) : Str := s.dropWhile isUnicodeWs

/-- Rust `str::trim_end`. -/
def trimEnd (s : Str) : Str := (s.reverse.dropWhile isUnicodeWs).reverse

/-- Rust `str::trim`. -/
def trim (s : Str) : Str := trimEnd (trimStart s)

/-- Split a string at every occurrence of one character; the separators are
dropped and the (possibly empty) pieces between them are kept. -/
def splitOnChar (sep : Char) : Str → List Str
  | [] => [[]]
  | c :: cs =>
    if c == sep then [] :: splitOnChar sep cs
    else match splitOnChar sep cs with
      | l :: ls => (c :: l) :: ls
      | [] => [[c]]

/-- The `'\n'`-separated segments of a string (what the multi-line anchors of
the `regex` crate see as lines). -/
def splitLines (s : Str) : List Str := splitOnChar '\n' s

/-- Rust `str::lines`: split on `'\n'`, drop a final empty segment produced by
a trailing newline, and strip one trailing `'\r'` from each line. -/
def rustLines (s : Str) : List Str :=
  let segs := splitLines s
  let segs := if segs.getLast? == some [] then segs.dropLast else segs
  segs.map fun l => if l.getLast? == some '\r' then l.dropLast else l

/-- Rust `str::to_ascii_lowercase`. -/
def asciiLower (s : Str) : Str :=
  s.map fun c => if 'A' ≤ c && c ≤ 'Z' then Char.ofNat (c.toNat + 32) else c

/-- Rust `str::replace`: replace every (leftmost, non-overlapping) occurrence
of `needle` by `repl`.  The callers in the source only ever pass the non-empty
literal needles `$DATE`, `$VERSION` and `$COMMITS`, so the empty-needle case
(where Rust would interleave `repl` between characters) is left as identity. -/
def replaceAll (needle repl : Str) (s : Str) : Str :=
  if h : needle = [] then s
  else
    match s with
    | [] => []
    | c :: cs =>
      if startsWith needle (c :: cs) then
        repl ++ replaceAll needle repl ((c :: cs).drop needle.length)
      else
        c :: replaceAll needle repl cs
termination_by s.length
decreasing_by
  · simp only [List.length_drop, List.length_cons]
    have : needle.length ≠ 0 := by simpa using h
    omega
  · simp

/-! ## The commit classifier (`src/conventional.rs`) -/

/-- `BumpLevel` from `conventional.rs`: `Patch < Minor < Major` (the Rust
`Ord` derived from declaration order). -/
inductive BumpLevel where
  | Patch
  | Minor
  | Major
deriving DecidableEq, Repr

/-- The rank realising the derived `Ord` of `BumpLevel`. -/
def BumpLevel.rank : BumpLevel → Nat
  | .Patch => 0
  | .Minor => 1
  | .Major => 2

/-- The larger of two bump levels (Rust `Ord::max` on `BumpLevel`). -/
def bumpMax (a b : BumpLevel) : BumpLevel := if a.rank ≤ b.rank then b else a

/-- Rust `Iterator::max().unwrap_or(BumpLevel::Patch)`: the greatest element
of the list, or `Patch` when it is empty (`Patch` is the least level, so a
fold from `Patch` computes exactly that). -/
def maxBumpD (l : List BumpLevel) : BumpLevel := l.foldl bumpMax .Patch

/-- `infer_bump` from `conventional.rs`, line for line: the header is the text
before the first `": "`, one trailing `'!'` on it marks a breaking change, the
commit type is the breaking-stripped header cut at an optional `'('`, and any
body line whose trimmed form starts with `BREAKING CHANGE:`/`BREAKING-CHANGE:`
also marks a breaking change. -/
def infer_bump (subject body : Str) : BumpLevel :=
  let header := ((splitOnce (lit ": ") subject).map Prod.fst).getD []
  let headerBreaking := header.getLast? == some '!'
  let headerWithoutBreaking := if headerBreaking then header.dropLast else header
  let commitType := ((splitOnce (lit "(") headerWithoutBreaking).map Prod.fst).getD headerWithoutBreaking
  let footerBreaking := (rustLines body).any fun line =>
    startsWith (lit "BREAKING CHANGE:") (trimStart line) ||
    startsWith (lit "BREAKING-CHANGE:") (trimStart line)
  if headerBreaking || footerBreaking then .Major
  else if commitType == lit "feat" then .Minor
  else .Patch

/-! ## Commits and the default window sort (`src/changelog.rs`) -/

/-- `GitCommit` from `git.rs`. -/
structure GitCommit where
  subject : Str
  body : Str
  time : Int
deriving DecidableEq, Repr

/-- `priority` from `changelog.rs`: the presentation bucket used by the
default changelog sort (independent from `infer_bump`). -/
def priority (subject : Str) : Nat :=
  if containsSub (lit "BREAKING CHANGE") subject || containsSub (lit "!:") subject then 3
  else if startsWith (lit "feat") subject then 2
  else if startsWith (lit "fix") subject then 1
  else 0

/-- The boolean order realising the comparator of `apply_default_sorting`
(`a` may come before `b` exactly when the Rust comparator does not return
`Greater` on `(a, b)`): priority descending, then timestamp descending. -/
def sortLe (a b : GitCommit) : Bool :=
  decide (priority b.subject < priority a.subject ∨
    (priority b.subject = priority a.subject ∧ b.time ≤ a.time))

/-- `apply_default_sorting` from `changelog.rs`.  Rust `slice::sort_by` is a
stable sort; `List.mergeSort` is the stable sort of the Lean library, so with
the comparator-derived order `sortLe` the two agree elementwise. -/
def apply_default_sorting (commits : List GitCommit) : List GitCommit :=
  commits.mergeSort sortLe

/-! ## Semantic versions (the `semver` crate, as used by the source) -/

/-- `semver::Version`: numeric triple plus raw pre-release and build-metadata
text (empty when absent). -/
structure Version where
  major : Nat
  minor : Nat
  patch : Nat
  pre : Str
  build : Str
deriving DecidableEq, Repr

/-- A decimal digit rendered as a character. -/
def digitChar (n : Nat) : Char := Char.ofNat (48 + n)

/-- Digit rendering with structural fuel (`natDigits` supplies `fuel = n`,
which the division chain never exhausts). -/
def natDigitsAux : Nat → Nat → Str
  | 0, n => [digitChar n]
  | fuel + 1, n =>
    if n < 10 then [digitChar n]
    else natDigitsAux fuel (n / 10) ++ [digitChar (n % 10)]

/-- The decimal digits of a natural number, most significant first. -/
def natDigits (n : Nat) : Str := natDigitsAux n n

/-- `semver::Version::to_string()`: `major.minor.patch`, then `-pre` and
`+build` when present. -/
def versionToString (v : Version) : Str :=
  natDigits v.major ++ '.' :: natDigits v.minor ++ '.' :: natDigits v.patch ++
  (if v.pre = [] then [] else '-' :: v.pre) ++
  (if v.build = [] then [] else '+' :: v.build)

/-- The numeric value of a digit string. -/
def digitsVal (ds : Str) : Nat := ds.foldl (fun a c => a * 10 + (c.toNat - 48)) 0

/-- Strict parse of one `major`/`minor`/`patch` component: a non-empty run of
ASCII digits, no leading zero unless the component is exactly `0`, value
within `u64` (the `semver` crate errors on overflow).  Returns the value and
the rest of the input. -/
def parseNum (s : Str) : Option (Nat × Str) :=
  let ds := s.takeWhile Char.isDigit
  let rest := s.dropWhile Char.isDigit
  if ds = [] then none
  else if ds.head? = some '0' ∧ 1 < ds.length then none
  else if digitsVal ds < 2 ^ 64 then some (digitsVal ds, rest) else none

/-- Consume one expected character. -/
def expectChar (c : Char) : Str → Option Str
  | [] => none
  | x :: xs => if x == c then some xs else none

/-- A character allowed inside a pre-release or build identifier. -/
def isIdentChar (c : Char) : Bool :=
  c.isDigit || ('a' ≤ c && c ≤ 'z') || ('A' ≤ c && c ≤ 'Z') || c == '-'

/-- Validity of the raw pre-release text: non-empty dot-separated identifiers
of `[0-9A-Za-z-]`, numeric identifiers without leading zeros. -/
def validPre (s : Str) : Bool :=
  (splitOnChar '.' s).all fun part =>
    !part.isEmpty && part.all isIdentChar &&
    !(part.all Char.isDigit && part.head? == some '0' && 1 < part.length)

/-- Validity of the raw build-metadata text: non-empty dot-separated
identifiers of `[0-9A-Za-z-]` (leading zeros allowed). -/
def validBuild (s : Str) : Bool :=
  (splitOnChar '.' s).all fun part => !part.isEmpty && part.all isIdentChar

/-- `semver::Version::parse` (strict): `major.minor.patch`, an optional
`-pre` section (up to a `'+'` or the end), an optional `+build` section, and
nothing else. -/
def versionParse (s : Str) : Option Version :=
  (parseNum s).bind fun (ma, r1) =>
  (expectChar '.' r1).bind fun r2 =>
  (parseNum r2).bind fun (mi, r3) =>
  (expectChar '.' r3).bind fun r4 =>
  (parseNum r4).bind fun (pa, r5) =>
  match r5 with
  | [] => some ⟨ma, mi, pa, [], []⟩
  | '-' :: rest =>
    let preRaw := rest.takeWhile (· != '+')
    let afterPre := rest.dropWhile (· != '+')
    if validPre preRaw then
      match afterPre with
      | [] => some ⟨ma, mi, pa, preRaw, []⟩
      | '+' :: b => if validBuild b then some ⟨ma, mi, pa, preRaw, b⟩ else none
      | _ => none
    else none
  | '+' :: b => if validBuild b then some ⟨ma, mi, pa, [], b⟩ else none
  | _ => none

/-- `normalize_tag_version` from `changelog.rs`: when the tag name starts with
`'v'`, `trim_start_matches('v')` removes EVERY leading `'v'`; then the
remainder is parsed strictly. -/
def normalize_tag_version (tagName : Str) : Option Version :=
  let normalized := if startsWith (lit "v") tagName then tagName.dropWhile (· == 'v') else tagName
  versionParse normalized

/-- `normalize_semver` from `version.rs` (`Result` modelled as `Option`; the
error text is not needed by any claim): trim whitespace, strip every leading
`'v'`, parse strictly. -/
def normalize_semver (raw : Str) : Option Version :=
  versionParse ((trim raw).dropWhile (· == 'v'))

/-- `bump_version` from `changelog.rs`.  Only the numeric fields are touched:
a pre-release or build suffix on the current version survives the bump. -/
def bump_version (current : Option Version) (bump : BumpLevel) : Version :=
  let next := current.getD ⟨0, 0, 0, [], []⟩
  match bump with
  | .Major => { next with major := next.major + 1, minor := 0, patch := 0 }
  | .Minor => { next with minor := next.minor + 1, patch := 0 }
  | .Patch => { next with patch := next.patch + 1 }

/-- `resolve_changelog_target` from `changelog.rs`: a keyword target bumps the
current version, any other target is parsed as an explicit version after
stripping leading `'v'`s, and no target applies the detected bump. -/
def resolve_changelog_target (current : Option Version) (target : Option Str)
    (detectedBump : BumpLevel) : Except Str Version :=
  match target with
  | none => .ok (bump_version current detectedBump)
  | some rawTarget =>
    let normalizedTarget := asciiLower rawTarget
    if normalizedTarget = lit "major" then .ok (bump_version current .Major)
    else if normalizedTarget = lit "minor" then .ok (bump_version current .Minor)
    else if normalizedTarget = lit "patch" then .ok (bump_version current .Patch)
    else
      match versionParse (rawTarget.dropWhile (· == 'v')) with
      | some v => .ok v
      | none => .error (lit "Invalid changelog target version")

/-! ## Releasability filtering (`src/filters.rs`, `src/changelog.rs`) -/

/-- The configured ignore patterns of `CommitFilter`.  The `regex` crate is a
collaborator; each compiled pattern is modelled as an abstract boolean matcher
over the raw subject. -/
abbrev IgnorePatterns := List (Str → Bool)

/-- `CommitFilter::is_ignored` from `filters.rs`: subjects starting with
`"Merge "` or matching any configured pattern. -/
def is_ignored (patterns : IgnorePatterns) (subject : Str) : Bool :=
  startsWith (lit "Merge ") subject || patterns.any fun pattern => pattern subject

/-- `collect_releasable_commits` from `changelog.rs`: drop ignored commits and
commits whose subject starts with `"chore"`. -/
def collect_releasable_commits (commits : List GitCommit) (patterns : IgnorePatterns) :
    List GitCommit :=
  commits.filter fun commit =>
    !is_ignored patterns commit.subject && !startsWith (lit "chore") commit.subject

/-- The commit-window core of `detect_bump` from `version.rs` (the window
itself is read from the history provider by the caller): drop ignored commits
— note: NOT `chore`-prefixed ones — classify each, take the maximum, default
`Patch`. -/
def detect_bump (commits : List GitCommit) (patterns : IgnorePatterns) : BumpLevel :=
  maxBumpD ((commits.filter fun commit => !is_ignored patterns commit.subject).map
    fun commit => infer_bump commit.subject commit.body)

/-! ## Date formatting (`format_date` in `src/changelog.rs`, via `chrono`) -/

/-- Proleptic-Gregorian civil date from days since 1970-01-01
(H. Hinnant's `civil_from_days`). -/
def civilFromDays (z : Int) : Int × Nat × Nat :=
  let z := z + 719468
  let era := z.fdiv 146097
  let doe := (z - era * 146097).toNat
  let yoe := (doe - doe / 1460 + doe / 36524 - doe / 146096) / 365
  let y : Int := (yoe : Int) + era * 400
  let doy := doe - (365 * yoe + yoe / 4 - yoe / 100)
  let mp := (5 * doy + 2) / 153
  let d := doy - (153 * mp + 2) / 5 + 1
  let m := if mp < 10 then mp + 3 else mp - 9
  (if m ≤ 2 then y + 1 else y, m, d)

/-- A natural number as decimal digits, zero-padded on the left to `w`. -/
def padNat (w n : Nat) : Str := List.replicate (w - (natDigits n).length) '0' ++ natDigits n

/-- `chrono`'s `%Y`: zero-padded to four digits for years `0..=9999`,
otherwise written with an explicit sign. -/
def yearStr (y : Int) : Str :=
  if 0 ≤ y ∧ y ≤ 9999 then padNat 4 y.toNat
  else if 0 ≤ y then '+' :: padNat 4 y.toNat
  else '-' :: padNat 4 (-y).toNat

/-- The `%Y-%m-%d` rendering of a timestamp (seconds since the epoch). -/
def civilFormat (ts : Int) : Str :=
  let (y, m, d) := civilFromDays (ts.fdiv 86400)
  yearStr y ++ '-' :: padNat 2 m ++ '-' :: padNat 2 d

/-- The first representable second of `chrono`'s calendar (year -262144). -/
def chronoMinTs : Int := -262145 * 86400 * 365 - 10 ^ 9

/-- The last representable second of `chrono`'s calendar (year 262143). -/
def chronoMaxTs : Int := 262144 * 86400 * 365 + 10 ^ 9

/-- `format_date` from `changelog.rs`: `DateTime::from_timestamp` falls back
to the Unix epoch when the timestamp is outside `chrono`'s calendar range
(approximated generously here: every claim evaluates dates at timestamps many
orders of magnitude inside the range), then formats as `%Y-%m-%d` in UTC. -/
def format_date (timestamp : Int) : Str :=
  if chronoMinTs ≤ timestamp ∧ timestamp ≤ chronoMaxTs then civilFormat timestamp
  else civilFormat 0

/-! ## Changelog sections (`src/changelog.rs`) -/

/-- `ChangelogSection` from `changelog.rs`. -/
structure ChangelogSection where
  date : Str
  version : Str
  commits : List Str
deriving DecidableEq, Repr

/-- `render_section` from `changelog.rs`: with a template, substitute `$DATE`,
`$VERSION` and `$COMMITS` (in that order) and trim; otherwise the default
`### <date> / <version>` heading, a blank line, and one bullet per commit,
trimmed. -/
def render_section (sec : ChangelogSection) (template : Option Str) : Str :=
  match template with
  | some template =>
    let commits := (sec.commits.map fun entry => lit "- " ++ entry).intersperse (lit "\n")
    trim (replaceAll (lit "$COMMITS") commits.flatten
      (replaceAll (lit "$VERSION") sec.version
        (replaceAll (lit "$DATE") sec.date template)))
  | none =>
    trim (lit "### " ++ sec.date ++ lit " / " ++ sec.version ++ lit "\n\n" ++
      (sec.commits.map fun commit => lit "- " ++ commit ++ lit "\n").flatten)

/-- `with_prepended_section` from `changelog.rs`. -/
def with_prepended_section (existing sectionMarkdown : Str) : Str :=
  let existing := trim existing
  if existing = [] then sectionMarkdown ++ lit "\n"
  else sectionMarkdown ++ lit "\n\n" ++ existing ++ lit "\n"

/-- Exactly `n` ASCII digits, then the rest (the `\d{n}` atom followed by a
non-digit: no backtracking is possible, so a longer digit run fails). -/
def parseDigitsN (n : Nat) (s : Str) : Option Str :=
  if (s.takeWhile Char.isDigit).length = n then some (s.dropWhile Char.isDigit) else none

/-- A non-empty ASCII digit run (`[0-9]+`), returned with the rest. -/
def parseDigits1 (s : Str) : Option (Str × Str) :=
  if s.takeWhile Char.isDigit = [] then none
  else some (s.takeWhile Char.isDigit, s.dropWhile Char.isDigit)

/-- One line matched against the heading pattern of `extract_versions`
(`^###\s+\d{4}-\d{2}-\d{2}\s*/\s*([0-9]+\.[0-9]+\.[0-9]+)\s*$`), returning
the captured version.  Deviation recorded: the `\d` class of the `regex`
crate also accepts non-ASCII decimal digits; ASCII suffices for every date
the program renders. -/
def parseHeadingVersion (line : Str) : Option Str :=
  match line with
  | '#' :: '#' :: '#' :: rest =>
    if rest.takeWhile isUnicodeWs = [] then none
    else
      (parseDigitsN 4 (rest.dropWhile isUnicodeWs)).bind fun r1 =>
      (expectChar '-' r1).bind fun r2 =>
      (parseDigitsN 2 r2).bind fun r3 =>
      (expectChar '-' r3).bind fun r4 =>
      (parseDigitsN 2 r4).bind fun r5 =>
      (expectChar '/' (r5.dropWhile isUnicodeWs)).bind fun r6 =>
      (parseDigits1 (r6.dropWhile isUnicodeWs)).bind fun (a, r7) =>
      (expectChar '.' r7).bind fun r8 =>
      (parseDigits1 r8).bind fun (b, r9) =>
      (expectChar '.' r9).bind fun r10 =>
      (parseDigits1 r10).bind fun (c, r11) =>
      if r11.dropWhile isUnicodeWs = [] then
        some (a ++ '.' :: b ++ '.' :: c)
      else none
  | _ => none

/-- `extract_versions` from `changelog.rs`: the versions captured by the
heading pattern, one scan per line (`(?m)` anchors).  The Rust `HashSet` is
modelled as the list of captures; only membership is ever consulted. -/
def extract_versions (markdown : Str) : List Str :=
  (splitLines markdown).filterMap parseHeadingVersion

/-! ## The commit-history provider (`src/git.rs`, a collaborator)

`read_tags` returns the pattern-matching tags sorted by commit time
descending; `read_commits_between_tags`/`read_commits` return the commits of
an exclusive-inclusive ancestor range.  Both walk the repository through
`git2`, so a run's history snapshot is modelled as the data they return. -/

/-- `GitTag` from `git.rs` (the commit oid is only used to seed history
walks, which the snapshot model performs by tag name). -/
structure GitTag where
  name : Str
  time : Int
deriving DecidableEq, Repr

/-- One repository snapshot: the tag list as `read_tags` returns it (already
pattern-filtered, newest first) and the window contents as
`read_commits_between_tags from to` returns them (`to = none` meaning the
branch tip, as in `read_commits`). -/
structure Repo where
  tags : List GitTag
  commitsBetween : Option Str → Option Str → List GitCommit

/-- `read_commits(None, tag_pattern)` from `git.rs`: the pending window, from
the newest tag (if any) to the branch tip. -/
def read_commits_pending (repo : Repo) : List GitCommit :=
  repo.commitsBetween (repo.tags.head?.map GitTag.name) none

/-! ## The changelog command (`src/changelog.rs`) -/

/-- The fields of `ChangelogArgs` that the document computation consults
(`dry_run`/`commit`/`commit_message` only affect where the result goes). -/
structure ChangelogArgsM where
  target : Option Str
  rebuild : Bool
deriving DecidableEq, Repr

/-- The loop body of `render_tag_history_sections`: tags oldest → newest,
each window bounded below by the previous tag in the full iteration (whether
or not that tag's name parses), sections only for non-empty windows of tags
whose name parses as a version. -/
def render_tag_history_aux (repo : Repo) (patterns : IgnorePatterns)
    (template : Option Str) : Option Str → List GitTag → List Str
  | _, [] => []
  | previousTagName, tag :: rest =>
    let commits := collect_releasable_commits
      (repo.commitsBetween previousTagName (some tag.name)) patterns
    let tailSections := render_tag_history_aux repo patterns template (some tag.name) rest
    if commits.isEmpty then tailSections
    else
      let sorted := apply_default_sorting commits
      match normalize_tag_version tag.name with
      | some version =>
        let date := format_date ((sorted.head?.map GitCommit.time).getD tag.time)
        render_section ⟨date, versionToString version, sorted.map GitCommit.subject⟩ template ::
          tailSections
      | none => tailSections

/-- `render_tag_history_sections` from `changelog.rs` (`tags.iter().rev()`
iterates the newest-first list oldest-first). -/
def render_tag_history_sections (repo : Repo) (patterns : IgnorePatterns)
    (template : Option Str) : List Str :=
  render_tag_history_aux repo patterns template none repo.tags.reverse

/-- `build_rebuild_output` from `changelog.rs`: the pending section (when the
pending window has releasable commits), then the historical sections newest
first, joined by blank lines, with a trailing newline. -/
def build_rebuild_output (repo : Repo) (patterns : IgnorePatterns)
    (template : Option Str) : Str :=
  let historical := render_tag_history_sections repo patterns template
  let latestVersion := repo.tags.head?.bind fun tag => normalize_tag_version tag.name
  let pendingCommits := collect_releasable_commits (read_commits_pending repo) patterns
  let sections :=
    (if pendingCommits.isEmpty then [] else
      let sorted := apply_default_sorting pendingCommits
      let bump := maxBumpD (sorted.map fun commit => infer_bump commit.subject commit.body)
      [render_section
        ⟨format_date ((sorted.head?.map GitCommit.time).getD 0),
         versionToString (bump_version latestVersion bump),
         sorted.map GitCommit.subject⟩ template]) ++
    historical.reverse
  if sections.isEmpty then [] else (sections.intersperse (lit "\n\n")).flatten ++ lit "\n"

/-- The sorted releasable pending commits of the non-rebuild changelog path. -/
def sortedReleasable (repo : Repo) (patterns : IgnorePatterns) : List GitCommit :=
  apply_default_sorting (collect_releasable_commits (read_commits_pending repo) patterns)

/-- The next version the non-rebuild changelog path computes (current version
from the newest tag, detected bump from the sorted releasable commits). -/
def changelogNextVersion (repo : Repo) (patterns : IgnorePatterns)
    (target : Option Str) : Except Str Version :=
  let latestVersion := repo.tags.head?.bind fun tag => normalize_tag_version tag.name
  let bump := maxBumpD ((sortedReleasable repo patterns).map
    fun commit => infer_bump commit.subject commit.body)
  resolve_changelog_target latestVersion target bump

/-- `execute_changelog_command` from `changelog.rs` as a document
transformer: the validation error, or `some newDocument` when the command
would write `CHANGELOG.md`, or `none` when it returns without writing
(no releasable commits, or the idempotence guard).  `dry_run` and the
auto-commit step only redirect the same document, so they are not modelled. -/
def execute_changelog_command (args : ChangelogArgsM) (template : Option Str)
    (patterns : IgnorePatterns) (repo : Repo) (existing : Str) :
    Except Str (Option Str) :=
  if args.rebuild && args.target.isSome then
    .error (lit "Cannot combine --rebuild with an explicit changelog target")
  else if args.rebuild then
    .ok (some (build_rebuild_output repo patterns template))
  else
    let existingVersions := extract_versions existing
    let commits := sortedReleasable repo patterns
    if commits.isEmpty then .ok none
    else
      match changelogNextVersion repo patterns args.target with
      | .error e => .error e
      | .ok nextVersion =>
        let nextVersionString := versionToString nextVersion
        if existingVersions.contains nextVersionString then .ok none
        else
          let sectionMarkdown := render_section
            ⟨format_date ((commits.head?.map GitCommit.time).getD 0),
             nextVersionString, commits.map GitCommit.subject⟩ template
          .ok (some (with_prepended_section existing sectionMarkdown))

/-! ## The release command (`src/release.rs`) -/

/-- `ReleaseCandidate` from `release.rs`. -/
structure ReleaseCandidate where
  tag_name : Str
  title : Str
  body : Str
deriving DecidableEq, Repr

/-- `ExistingRelease` from `release.rs` (the remote id is opaque; `u64`
modelled as `Nat`). -/
structure ExistingRelease where
  id : Nat
  tag_name : Str
  name : Option Str
  body : Option Str
deriving DecidableEq, Repr

/-- `ReleasePayload` from `release.rs`. -/
structure ReleasePayload where
  tag_name : Str
  name : Str
  body : Str
  draft : Bool
  prerelease : Bool
deriving DecidableEq, Repr

/-- One mutating call to the release store client. -/
inductive RemoteCall where
  | create (payload : ReleasePayload)
  | update (id : Nat) (payload : ReleasePayload)
  | del (id : Nat)
deriving DecidableEq, Repr

/-- `normalize_release_version` from `release.rs`
(`trim_start_matches('v')` removes every leading `'v'`). -/
def normalize_release_version (version : Str) : Str := version.dropWhile (· == 'v')

/-- `release_tag` from `release.rs`. -/
def release_tag (tag : Str) : Str := 'v' :: normalize_release_version tag

/-- `release_title` from `release.rs`. -/
def release_title (tag : Str) : Str := normalize_release_version tag

/-- `render_release_body` from `release.rs`. -/
def render_release_body (commits : List Str) : Str :=
  if commits.isEmpty then lit "- No notable changes."
  else ((commits.map fun subject => lit "- " ++ subject).intersperse (lit "\n")).flatten

/-- The loop body of `build_release_candidates`: tags oldest → newest, one
candidate per tag, each window bounded below by the previous tag in the full
iteration. -/
def build_release_candidates_aux (repo : Repo) (patterns : IgnorePatterns) :
    Option Str → List GitTag → List ReleaseCandidate
  | _, [] => []
  | previousTagName, tag :: rest =>
    let commits := apply_default_sorting (collect_releasable_commits
      (repo.commitsBetween previousTagName (some tag.name)) patterns)
    ⟨release_tag tag.name, release_title tag.name,
      render_release_body (commits.map GitCommit.subject)⟩ ::
      build_release_candidates_aux repo patterns (some tag.name) rest

/-- `build_release_candidates` from `release.rs`. -/
def build_release_candidates (repo : Repo) (patterns : IgnorePatterns) :
    List ReleaseCandidate :=
  build_release_candidates_aux repo patterns none repo.tags.reverse

/-- The desired payload for one candidate (`draft`/`prerelease` are always
`false` in the source — `args.prerelease` is never consulted). -/
def payloadOf (candidate : ReleaseCandidate) : ReleasePayload :=
  ⟨candidate.tag_name, candidate.title, candidate.body, false, false⟩

/-- The create/update pass of `execute_release_command`: for each candidate in
order, look up the first existing release with the same tag name; absent ⇒
create, identical name and body ⇒ no call, otherwise ⇒ update in place.  The
`existing` view is not changed by the loop, exactly as in the source. -/
def upsert_calls (existing : List ExistingRelease) (candidates : List ReleaseCandidate) :
    List RemoteCall :=
  candidates.flatMap fun candidate =>
    match existing.find? (fun release => release.tag_name == candidate.tag_name) with
    | some found =>
      if found.name == some candidate.title && found.body == some candidate.body then []
      else [.update found.id (payloadOf candidate)]
    | none => [.create (payloadOf candidate)]

/-- The mutating-call trace of `execute_release_command` after the first
`list_releases`.  The remote store is modelled as the `existing` list itself:
deleting a release removes it, so the re-fetch the source performs after the
rebuild deletions returns `existing` minus the deleted releases — the
releases whose tag name is in the candidate set. -/
def reconcile_calls (rebuild : Bool) (candidates : List ReleaseCandidate)
    (existing : List ExistingRelease) : List RemoteCall :=
  if rebuild then
    let targetTags := candidates.map ReleaseCandidate.tag_name
    let deletions := (existing.filter fun release =>
      !targetTags.contains release.tag_name).map fun release => RemoteCall.del release.id
    let refetched := existing.filter fun release => targetTags.contains release.tag_name
    deletions ++ upsert_calls refetched candidates
  else upsert_calls existing candidates

/-- `ReleaseArgs` (the fields `execute_release_command` could consult;
`token`/`owner`/`repo` overrides are folded into the config model below). -/
structure ReleaseArgsM where
  target : Option Str
  rebuild : Bool
  notes_only : Bool
  dry_run : Bool
  prerelease : Bool
deriving DecidableEq, Repr

/-- `execute_release_command` from `release.rs` as a call-trace computation:
the validation and configuration errors in source order, then the reconciler
trace (empty for `notes_only`/`dry_run`, which never mutate).  Note that
`args.target` and `args.prerelease` are never read by the source. -/
def execute_release_command (args : ReleaseArgsM) (patterns : IgnorePatterns)
    (repo : Repo) (ownerRepo : Option (Str × Str)) (token : Option Str)
    (existing : List ExistingRelease) : Except Str (List RemoteCall) :=
  if repo.tags.isEmpty then .error (lit "No matching git tags found")
  else
    let candidates := build_release_candidates repo patterns
    let targetCandidates : Except Str (List ReleaseCandidate) :=
      if args.rebuild then .ok candidates
      else match candidates.getLast? with
        | some last => .ok [last]
        | none => .error (lit "No release candidates produced from git tags")
    match targetCandidates with
    | .error e => .error e
    | .ok targetCandidates =>
      if args.notes_only then .ok []
      else
        match ownerRepo with
        | none => .error (lit "Cannot determine GitHub owner/repo.")
        | some _ =>
          if args.dry_run then .ok []
          else
            match token with
            | none => .error (lit "Missing GitHub token.")
            | some _ => .ok (reconcile_calls args.rebuild targetCandidates existing)

/-! ## Spec-side definitions

These follow the wording of the specification's claims (the refinement side
of each comparison); everything above follows the source. -/

/-- `latest_tag_version` from `version.rs`: the first tag (newest first)
whose name parses via `normalize_semver`, defaulting to `0.0.0`. -/
def latest_tag_version : List GitTag → Version
  | [] => ⟨0, 0, 0, [], []⟩
  | tag :: rest =>
    match normalize_semver tag.name with
    | some version => version
    | none => latest_tag_version rest

/-- Claim wording (C3): the text before the first `": "` of the subject
(empty when there is no separator). -/
def headerOf (subject : Str) : Str :=
  ((splitOnce (lit ": ") subject).map Prod.fst).getD []

/-- Claim wording (C3): the commit type — the breaking-stripped header before
an optional `'('`. -/
def commitTypeOf (subject : Str) : Str :=
  let header := headerOf subject
  let stripped := if header.getLast? == some '!' then header.dropLast else header
  ((splitOnce (lit "(") stripped).map Prod.fst).getD stripped

/-- Claim wording (C3): the header ends with `'!'`, or some body line, after
trimming leading whitespace, starts with `BREAKING CHANGE:` or
`BREAKING-CHANGE:`. -/
def breakingIndicated (subject body : Str) : Bool :=
  (headerOf subject).getLast? == some '!' ||
  (rustLines body).any fun line =>
    startsWith (lit "BREAKING CHANGE:") (trimStart line) ||
    startsWith (lit "BREAKING-CHANGE:") (trimStart line)

/-- A `YYYY-MM-DD` date: four, two and two ASCII digits. -/
def DateShape (s : Str) : Prop :=
  ∃ y m d : Str, s = y ++ '-' :: m ++ '-' :: d ∧
    y.length = 4 ∧ m.length = 2 ∧ d.length = 2 ∧
    (∀ c ∈ y, c.isDigit = true) ∧ (∀ c ∈ m, c.isDigit = true) ∧ (∀ c ∈ d, c.isDigit = true)

/-- A plain numeric `major.minor.patch` version string (the shape rendered
for every version without pre-release or build suffix, and the only shape the
heading pattern of `extract_versions` captures). -/
def PlainVersionShape (s : Str) : Prop :=
  ∃ a b c : Str, s = a ++ '.' :: b ++ '.' :: c ∧
    a ≠ [] ∧ b ≠ [] ∧ c ≠ [] ∧
    (∀ x ∈ a, x.isDigit = true) ∧ (∀ x ∈ b, x.isDigit = true) ∧ (∀ x ∈ c, x.isDigit = true)

/-- A remote call is "for" the release of tag `t` when it creates or updates
a payload carrying `t`, or deletes a remote release whose tag is `t`. -/
def callRefersToTag (existing : List ExistingRelease) (t : Str) : RemoteCall → Prop
  | .create payload => payload.tag_name = t
  | .update _ payload => payload.tag_name = t
  | .del i => ∃ r ∈ existing, r.id = i ∧ r.tag_name = t

/-- Claim wording (C10): each tag (oldest first) paired with the tag that
iterates immediately before it — the exclusive lower bound of its window —
taken from the full tag list, whether or not that tag's name parses. -/
def tagWindows (tags : List GitTag) : List (Option Str × GitTag) :=
  let ordered := tags.reverse
  (none :: ordered.map fun tag => some tag.name).zip ordered

/-- Claim wording (C10): the section a window contributes to the rebuild
output — none when the window is empty or the tag's name does not parse. -/
def windowSection (repo : Repo) (patterns : IgnorePatterns) (template : Option Str)
    (window : Option Str × GitTag) : Option Str :=
  let commits := collect_releasable_commits
    (repo.commitsBetween window.1 (some window.2.name)) patterns
  if commits.isEmpty then none
  else
    let sorted := apply_default_sorting commits
    match normalize_tag_version window.2.name with
    | some version =>
      some (render_section
        ⟨format_date ((sorted.head?.map GitCommit.time).getD window.2.time),
         versionToString version, sorted.map GitCommit.subject⟩ template)
    | none => none

/-! ## Concrete scenario instances used by the claims -/

/-- C2's existing remote state: `v0.1.0` (matching) and `v9.9.9` (stale). -/
def existingC2 : List ExistingRelease :=
  [⟨1, lit "v0.1.0", some (lit "0.1.0"), some (lit "- fix: one")⟩,
   ⟨2, lit "v9.9.9", some (lit "9.9.9"), some (lit "- old")⟩]

/-- C2's desired candidates: `v0.1.0` (unchanged) and `v0.2.0` (new). -/
def candidatesC2 : List ReleaseCandidate :=
  [⟨lit "v0.1.0", lit "0.1.0", lit "- fix: one"⟩,
   ⟨lit "v0.2.0", lit "0.2.0", lit "- feat: two"⟩]

/-- A minimal repository with one plain version tag and one pending commit. -/
def repoOneTag : Repo :=
  ⟨[⟨lit "v1.2.3", 100⟩], fun _ _ => [⟨lit "fix: a", [], 0⟩]⟩

/-- A repository whose newest (and only) tag carries a pre-release suffix. -/
def repoPreTag : Repo :=
  ⟨[⟨lit "v1.2.3-rc", 100⟩], fun _ _ => [⟨lit "fix: a", [], 0⟩]⟩

/-- C10's repository: three tags, the middle one (`not-semver`) unparsable;
each window holds one distinct commit and the pending window is empty. -/
def repoMixedTags : Repo :=
  ⟨[⟨lit "v0.2.0", 30⟩, ⟨lit "not-semver", 20⟩, ⟨lit "v0.1.0", 10⟩],
   fun lower upper =>
     match lower, upper with
     | none, some n => if n == lit "v0.1.0" then [⟨lit "fix: one", [], 5⟩] else []
     | some p, some n =>
       if p == lit "v0.1.0" && n == lit "not-semver" then [⟨lit "feat: dropped", [], 15⟩]
       else if p == lit "not-semver" && n == lit "v0.2.0" then [⟨lit "fix: two", [], 25⟩]
       else []
     | _, _ => []⟩

/-! ## General lemmas -/

theorem startsWith_v_false_dropWhile {t : Str} (h : startsWith (lit "v") t = false) :
    t.dropWhile (· == 'v') = t := by
  cases t with
  | nil => rfl
  | cons c cs =>
    have hc : ('v' == c) = false := by
      by_contra hvc
      simp only [Bool.not_eq_false, beq_iff_eq] at hvc
      subst hvc
      simp [lit, startsWith] at h
    have : (c == 'v') = false := by
      simp only [beq_eq_false_iff_ne] at hc ⊢
      exact fun e => hc e.symm
    simp [List.dropWhile_cons, this]

/-! ## C7 -/

/-- C7: the claim says a tag version is obtained by stripping at most one
leading `'v'`, so that `"vv1.2.3"` yields no version.  The source strips
EVERY leading `'v'` (`trim_start_matches('v')`), so `"vv1.2.3"` parses as
`1.2.3`: the claim is refuted at that input. -/
theorem c7_counterexample_vv_tag_parses :
    normalize_tag_version (lit "vv1.2.3") = some ⟨1, 2, 3, [], []⟩ ∧
    ¬ normalize_tag_version (lit "vv1.2.3") = none := by
  constructor
  · decide
  · decide

/-- C7 (amended): a tag's semantic version is obtained by stripping ALL
leading `'v'` characters (the same normalisation `release.rs` uses) and
strictly parsing the remainder; a tag that is unparsable after that stripping
is skipped by version inference (`latest_tag_version` moves on to the next
tag); `"vv1.2.3"` parses as `1.2.3` while `"v1.2.3"` — the remainder the
claim's single-strip reading would produce — does not parse. -/
theorem c7_normalize_tag_version_strips_every_v :
    (∀ tagName : Str,
      normalize_tag_version tagName = versionParse (normalize_release_version tagName)) ∧
    (∀ (tag : GitTag) (rest : List GitTag), normalize_semver tag.name = none →
      latest_tag_version (tag :: rest) = latest_tag_version rest) ∧
    normalize_tag_version (lit "vv1.2.3") = some ⟨1, 2, 3, [], []⟩ ∧
    versionParse (lit "v1.2.3") = none := by
  refine ⟨fun tagName => ?_, fun tag rest h => ?_, by decide, by decide⟩
  · unfold normalize_tag_version normalize_release_version
    by_cases h : startsWith (lit "v") tagName = true
    · simp [h]
    · simp only [Bool.not_eq_true] at h
      simp [h, startsWith_v_false_dropWhile h]
  · simp [latest_tag_version, h]

/-! ## C3 -/

/-- C3: classification yields `Major` exactly when the text before the first
`": "` ends with `'!'` or some body line, after trimming leading whitespace,
starts with `BREAKING CHANGE:`/`BREAKING-CHANGE:`; otherwise `Minor` exactly
when the commit type is exactly `feat`; otherwise `Patch`, including for
subjects with no `": "` separator. -/
theorem c3_infer_bump_characterization (subject body : Str) :
    (infer_bump subject body = .Major ↔ breakingIndicated subject body = true) ∧
    (infer_bump subject body = .Minor ↔
      breakingIndicated subject body = false ∧ commitTypeOf subject = lit "feat") ∧
    (infer_bump subject body = .Patch ↔
      breakingIndicated subject body = false ∧ commitTypeOf subject ≠ lit "feat") ∧
    (splitOnce (lit ": ") subject = none → breakingIndicated subject body = false →
      infer_bump subject body = .Patch) := by
  have hmain : infer_bump subject body =
      if breakingIndicated subject body then .Major
      else if commitTypeOf subject == lit "feat" then .Minor
      else .Patch := by
    unfold infer_bump breakingIndicated commitTypeOf headerOf
    cases hH : (((splitOnce (lit ": ") subject).map Prod.fst).getD []).getLast? == some '!' <;>
      simp [hH]
  refine ⟨?_, ?_, ?_, ?_⟩
  · rw [hmain]
    cases hB : breakingIndicated subject body <;>
      cases hT : commitTypeOf subject == lit "feat" <;> simp_all
  · rw [hmain]
    cases hB : breakingIndicated subject body <;>
      cases hT : commitTypeOf subject == lit "feat" <;> simp_all
  · rw [hmain]
    cases hB : breakingIndicated subject body <;>
      cases hT : commitTypeOf subject == lit "feat" <;> simp_all
  · intro hs hB
    have hct : commitTypeOf subject = [] := by
      have hs' : splitOnce [':', ' '] subject = none := hs
      unfold commitTypeOf headerOf
      simp [hs', splitOnce, startsWith, lit]
    have hne : (commitTypeOf subject == lit "feat") = false := by
      rw [hct]; decide
    rw [hmain, hB, hne]
    simp

/-! ## C4 -/

theorem sortLe_trans (a b c : GitCommit) (h1 : sortLe a b = true) (h2 : sortLe b c = true) :
    sortLe a c = true := by
  simp only [sortLe, decide_eq_true_eq] at *
  omega

theorem sortLe_total (a b : GitCommit) : (sortLe a b || sortLe b a) = true := by
  simp only [sortLe, Bool.or_eq_true, decide_eq_true_eq]
  omega

theorem filter_key_apply_default_sorting (commits : List GitCommit) (p : Nat) (t : Int) :
    (apply_default_sorting commits).filter (fun c => priority c.subject == p && c.time == t) =
      commits.filter (fun c => priority c.subject == p && c.time == t) := by
  set q : GitCommit → Bool := fun c => priority c.subject == p && c.time == t with hq
  have hsub : (commits.filter q).Sublist (apply_default_sorting commits) := by
    apply List.sublist_mergeSort sortLe_trans sortLe_total
    · apply List.pairwise_of_forall_mem_list
      intro a ha b hb
      have ha' := List.of_mem_filter ha
      have hb' := List.of_mem_filter hb
      simp only [hq, Bool.and_eq_true, beq_iff_eq] at ha' hb'
      simp only [sortLe, decide_eq_true_eq]
      omega
    · exact List.filter_sublist commits
  have hself : (commits.filter q).filter q = commits.filter q :=
    List.filter_eq_self.mpr fun a ha => List.of_mem_filter ha
  have hsub2 : (commits.filter q).Sublist ((apply_default_sorting commits).filter q) := by
    have := hsub.filter q
    rwa [hself] at this
  have hlen : ((apply_default_sorting commits).filter q).length = (commits.filter q).length :=
    ((List.mergeSort_perm commits sortLe).filter q).length_eq
  exact (hsub2.eq_of_length hlen.symm).symm

/-- C4: the default window sort permutes the commits into an order that is
pairwise priority-descending with timestamp-descending tie-break, preserves
the relative order of commits sharing both priority and timestamp (stability),
and on the claim's concrete instance (priorities `[0,2,3,3,0,1]`, timestamps
`[4,1,3,3,1,2]`) produces exactly the bucketed order the claim lists. -/
theorem c4_apply_default_sorting_spec :
    (∀ commits : List GitCommit, (apply_default_sorting commits).Perm commits) ∧
    (∀ commits : List GitCommit, (apply_default_sorting commits).Pairwise fun a b =>
      priority b.subject < priority a.subject ∨
        (priority b.subject = priority a.subject ∧ b.time ≤ a.time)) ∧
    (∀ (commits : List GitCommit) (p : Nat) (t : Int),
      (apply_default_sorting commits).filter (fun c => priority c.subject == p && c.time == t) =
        commits.filter (fun c => priority c.subject == p && c.time == t)) ∧
    apply_default_sorting
        [⟨lit "docs: a", [], 4⟩, ⟨lit "feat: y", [], 1⟩,
         ⟨lit "chore: BREAKING CHANGE api", [], 3⟩, ⟨lit "refactor!: x", [], 3⟩,
         ⟨lit "other z", [], 1⟩, ⟨lit "fix: w", [], 2⟩] =
      [⟨lit "chore: BREAKING CHANGE api", [], 3⟩, ⟨lit "refactor!: x", [], 3⟩,
       ⟨lit "feat: y", [], 1⟩, ⟨lit "fix: w", [], 2⟩,
       ⟨lit "docs: a", [], 4⟩, ⟨lit "other z", [], 1⟩] := by
  refine ⟨fun commits => List.mergeSort_perm commits sortLe, fun commits => ?_,
    filter_key_apply_default_sorting, by
      simp [apply_default_sorting, List.mergeSort, List.merge, sortLe, priority, containsSub,
        startsWith, lit]⟩
  have h := List.sorted_mergeSort sortLe_trans sortLe_total commits
  exact h.imp fun hab => by simpa [sortLe, decide_eq_true_eq] using hab

/-! ## C8 -/

instance : RightCommutative bumpMax :=
  ⟨fun b a1 a2 => by cases b <;> cases a1 <;> cases a2 <;> rfl⟩

theorem maxBumpD_perm {l l' : List BumpLevel} (h : l.Perm l') : maxBumpD l = maxBumpD l' := by
  unfold maxBumpD
  exact h.foldl_eq BumpLevel.Patch

/-- C8: the claim says the aggregate bump of the semver/update/changelog paths
equals the maximum classifier level over the window's releasable commits
(`Merge `/`chore`/ignore-pattern excluded).  `detect_bump` (the semver and
update paths) does NOT exclude `chore`-prefixed commits: on the window
`["chore!: drop support"]` it yields `Major` while the maximum over the
releasable commits (an empty set) is the default `Patch`. -/
theorem c8_counterexample_breaking_chore :
    detect_bump [⟨lit "chore!: drop support", [], 0⟩] [] = .Major ∧
    maxBumpD ((collect_releasable_commits [⟨lit "chore!: drop support", [], 0⟩] []).map
      fun c => infer_bump c.subject c.body) = .Patch ∧
    BumpLevel.Major ≠ BumpLevel.Patch := by
  refine ⟨by decide, by decide, by decide⟩

/-- C8 (amended): the changelog path's aggregate (computed after sorting)
equals the maximum classifier level over the releasable commits — sorting
never changes the aggregate — and `detect_bump` (the semver/update paths)
agrees with that releasable maximum exactly on windows with no non-ignored
`chore`-prefixed commit; `detect_bump` itself only excludes `Merge ` and
ignore-pattern subjects. -/
theorem c8_aggregate_bump_characterization :
    (∀ (commits : List GitCommit) (patterns : IgnorePatterns),
      maxBumpD ((apply_default_sorting (collect_releasable_commits commits patterns)).map
        fun c => infer_bump c.subject c.body) =
      maxBumpD ((collect_releasable_commits commits patterns).map
        fun c => infer_bump c.subject c.body)) ∧
    (∀ (commits : List GitCommit) (patterns : IgnorePatterns),
      (∀ c ∈ commits, is_ignored patterns c.subject = true ∨
        startsWith (lit "chore") c.subject = false) →
      detect_bump commits patterns =
        maxBumpD ((collect_releasable_commits commits patterns).map
          fun c => infer_bump c.subject c.body)) := by
  constructor
  · intro commits patterns
    exact maxBumpD_perm ((List.mergeSort_perm _ sortLe).map _)
  · intro commits patterns h
    unfold detect_bump collect_releasable_commits
    have hfe : commits.filter (fun c => !is_ignored patterns c.subject) =
        commits.filter (fun c =>
          !is_ignored patterns c.subject && !startsWith (lit "chore") c.subject) := by
      apply List.filter_congr
      intro a ha
      rcases h a ha with hig | hch
      · simp [hig]
      · simp [hch]
    rw [hfe]

/-! ## C1 -/

theorem find?_tag_eq_some_of_nodup {existing : List ExistingRelease} {r : ExistingRelease}
    (hnd : (existing.map ExistingRelease.tag_name).Nodup) (hr : r ∈ existing) :
    existing.find? (fun release => release.tag_name == r.tag_name) = some r := by
  induction existing with
  | nil => cases hr
  | cons e es ih =>
    simp only [List.map_cons, List.nodup_cons] at hnd
    rcases List.mem_cons.mp hr with rfl | hres
    · simp [List.find?_cons]
    · have hne : (e.tag_name == r.tag_name) = false := by
        simp only [beq_eq_false_iff_ne]
        intro he
        exact hnd.1 (he ▸ List.mem_map_of_mem ExistingRelease.tag_name hres)
      simp [List.find?_cons, hne, ih hnd.2 hres]

theorem upsert_calls_skips_matching {existing : List ExistingRelease}
    {candidates : List ReleaseCandidate} {c : ReleaseCandidate}
    (hndE : (existing.map ExistingRelease.tag_name).Nodup)
    (hndC : (candidates.map ReleaseCandidate.tag_name).Nodup)
    (hc : c ∈ candidates)
    (hmatch : ∃ r ∈ existing, r.tag_name = c.tag_name ∧ r.name = some c.title ∧
      r.body = some c.body) :
    ∀ k ∈ upsert_calls existing candidates, ∀ l : List ExistingRelease,
      ¬ callRefersToTag l c.tag_name k := by
  obtain ⟨r, hrmem, hrtag, hrname, hrbody⟩ := hmatch
  intro k hk l
  simp only [upsert_calls, List.mem_flatMap] at hk
  obtain ⟨c', hc', hk⟩ := hk
  have hcc : c'.tag_name = c.tag_name → c' = c := fun he =>
    List.inj_on_of_nodup_map hndC hc' hc he
  cases hfind : existing.find? (fun release => release.tag_name == c'.tag_name) with
  | some found =>
    rw [hfind] at hk
    by_cases hsame : (found.name == some c'.title && found.body == some c'.body) = true
    · simp [hsame] at hk
    · simp only [Bool.not_eq_true] at hsame
      simp only [hsame, Bool.false_eq_true, if_false, List.mem_singleton] at hk
      subst hk
      intro habs
      simp only [callRefersToTag, payloadOf] at habs
      have hc'c := hcc habs
      subst hc'c
      have hfind2 := find?_tag_eq_some_of_nodup hndE hrmem
      rw [hrtag] at hfind2
      rw [hfind] at hfind2
      have hfr : found = r := Option.some.inj hfind2
      subst hfr
      simp [hrname, hrbody] at hsame
  | none =>
    rw [hfind] at hk
    simp only [List.mem_singleton] at hk
    subst hk
    intro habs
    simp only [callRefersToTag, payloadOf] at habs
    have hc'c := hcc habs
    subst hc'c
    rw [List.find?_eq_none] at hfind
    exact hfind r hrmem (by simp [hrtag])

theorem upsert_calls_eq_nil {existing : List ExistingRelease}
    {candidates : List ReleaseCandidate}
    (hndE : (existing.map ExistingRelease.tag_name).Nodup)
    (hall : ∀ c ∈ candidates, ∃ r ∈ existing, r.tag_name = c.tag_name ∧
      r.name = some c.title ∧ r.body = some c.body) :
    upsert_calls existing candidates = [] := by
  rw [upsert_calls, List.flatMap_eq_nil_iff]
  intro c hc
  obtain ⟨r, hrmem, hrtag, hrname, hrbody⟩ := hall c hc
  have hfind := find?_tag_eq_some_of_nodup hndE hrmem
  rw [hrtag] at hfind
  rw [hfind]
  simp [hrname, hrbody]

/-- C1: a desired candidate whose tag name also names an existing remote
release with identical name and body draws no create, update or delete call
(under the set-model hypotheses that remote tag names, remote ids and desired
tag names are each unique, as the release store keys them); and when every
candidate matches an existing release and every existing release's tag is
desired (identical desired and existing sets), the reconciler issues zero
mutating calls, in both normal and rebuild mode. -/
theorem c1_reconcile_idempotent (rebuild : Bool) (candidates : List ReleaseCandidate)
    (existing : List ExistingRelease)
    (hndE : (existing.map ExistingRelease.tag_name).Nodup)
    (hndI : (existing.map ExistingRelease.id).Nodup)
    (hndC : (candidates.map ReleaseCandidate.tag_name).Nodup) :
    (∀ c ∈ candidates,
      (∃ r ∈ existing, r.tag_name = c.tag_name ∧ r.name = some c.title ∧
        r.body = some c.body) →
      ∀ k ∈ reconcile_calls rebuild candidates existing,
        ¬ callRefersToTag existing c.tag_name k) ∧
    ((∀ c ∈ candidates, ∃ r ∈ existing, r.tag_name = c.tag_name ∧
        r.name = some c.title ∧ r.body = some c.body) →
      (∀ r ∈ existing, r.tag_name ∈ candidates.map ReleaseCandidate.tag_name) →
      reconcile_calls rebuild candidates existing = []) := by
  have hsubRe : (existing.filter fun release =>
      (candidates.map ReleaseCandidate.tag_name).contains release.tag_name).Sublist
      existing := List.filter_sublist existing
  have hndE' : ((existing.filter fun release =>
      (candidates.map ReleaseCandidate.tag_name).contains release.tag_name).map
      ExistingRelease.tag_name).Nodup :=
    (hsubRe.map ExistingRelease.tag_name).nodup hndE
  constructor
  · intro c hc hmatch k hk
    obtain ⟨r, hrmem, hrtag, hrname, hrbody⟩ := hmatch
    cases rebuild with
    | false =>
      exact upsert_calls_skips_matching hndE hndC hc
        ⟨r, hrmem, hrtag, hrname, hrbody⟩ k hk existing
    | true =>
      simp only [reconcile_calls, if_pos, List.mem_append] at hk
      rcases hk with hdel | hup
      · simp only [List.mem_map, List.mem_filter] at hdel
        obtain ⟨s, ⟨hsmem, hstag⟩, rfl⟩ := hdel
        intro habs
        simp only [callRefersToTag] at habs
        obtain ⟨r', hr'mem, hr'id, hr'tag⟩ := habs
        have hr's : r' = s := List.inj_on_of_nodup_map hndI hr'mem hsmem hr'id
        subst hr's
        rw [hr'tag] at hstag
        have hcmem : c.tag_name ∈ candidates.map ReleaseCandidate.tag_name :=
          List.mem_map_of_mem ReleaseCandidate.tag_name hc
        simp [hcmem] at hstag
      · have hrmem' : r ∈ existing.filter fun release =>
            (candidates.map ReleaseCandidate.tag_name).contains release.tag_name := by
          rw [List.mem_filter]
          refine ⟨hrmem, ?_⟩
          have : c.tag_name ∈ candidates.map ReleaseCandidate.tag_name :=
            List.mem_map_of_mem ReleaseCandidate.tag_name hc
          simp [hrtag, this]
        exact upsert_calls_skips_matching hndE' hndC hc
          ⟨r, hrmem', hrtag, hrname, hrbody⟩ k hup existing
  · intro hall htags
    cases rebuild with
    | false => exact upsert_calls_eq_nil hndE hall
    | true =>
      simp only [reconcile_calls, if_pos]
      have hfe : (existing.filter fun release =>
          !(candidates.map ReleaseCandidate.tag_name).contains release.tag_name) = [] := by
        rw [List.filter_eq_nil_iff]
        intro r hr
        simp [htags r hr]
      have hre : (existing.filter fun release =>
          (candidates.map ReleaseCandidate.tag_name).contains release.tag_name) = existing := by
        rw [List.filter_eq_self]
        intro r hr
        simp [htags r hr]
      rw [hfe, hre, upsert_calls_eq_nil hndE hall]
      rfl

/-- C1 witness: with one candidate identical to the one existing remote
release, the rebuild reconciler touches nothing. -/
theorem c1_reconcile_idempotent_witness :
    reconcile_calls true [⟨lit "v1.0.0", lit "1.0.0", lit "- a"⟩]
      [⟨7, lit "v1.0.0", some (lit "1.0.0"), some (lit "- a")⟩] = [] :=
  (c1_reconcile_idempotent true [⟨lit "v1.0.0", lit "1.0.0", lit "- a"⟩]
    [⟨7, lit "v1.0.0", some (lit "1.0.0"), some (lit "- a")⟩]
    (by decide) (by decide) (by decide)).2
    (by decide) (by decide)

/-! ## C2 -/

/-- C2: in rebuild mode the trace is the deletions of every existing release
whose tag is not desired, followed — only after the re-fetch, which the store
model returns as the surviving releases — by the create/update pass computed
against that freshly fetched list; every stale release is deleted; and on the
claim's concrete instance (existing `{v0.1.0, v9.9.9}`, desired
`{v0.1.0, v0.2.0}`, `v0.1.0` unchanged) the trace is exactly
`[delete v9.9.9, create v0.2.0]` — no call touches `v0.1.0`. -/
theorem c2_rebuild_plan :
    (∀ (candidates : List ReleaseCandidate) (existing : List ExistingRelease),
      reconcile_calls true candidates existing =
        ((existing.filter fun release =>
          !(candidates.map ReleaseCandidate.tag_name).contains release.tag_name).map
            fun release => RemoteCall.del release.id) ++
        upsert_calls (existing.filter fun release =>
          (candidates.map ReleaseCandidate.tag_name).contains release.tag_name) candidates) ∧
    (∀ (candidates : List ReleaseCandidate) (existing : List ExistingRelease)
      (release : ExistingRelease), release ∈ existing →
      release.tag_name ∉ candidates.map ReleaseCandidate.tag_name →
      RemoteCall.del release.id ∈ reconcile_calls true candidates existing) ∧
    reconcile_calls true candidatesC2 existingC2 =
      [RemoteCall.del 2,
       RemoteCall.create ⟨lit "v0.2.0", lit "0.2.0", lit "- feat: two", false, false⟩] := by
  refine ⟨fun candidates existing => by simp [reconcile_calls], ?_, by decide⟩
  intro candidates existing release hmem hnot
  simp only [reconcile_calls, if_pos, List.mem_append]
  left
  simp only [List.mem_map, List.mem_filter]
  exact ⟨release, ⟨hmem, by simp [hnot]⟩, rfl⟩

/-! ## C9 -/

/-- C9: the changelog command combining rebuild with an explicit target is
rejected with the validation error whatever the file and repository state
(the check precedes every read and write); but the release command invoked
with the pre-release flag and no explicit target is NOT rejected — the
source never consults `args.prerelease` or `args.target` (the flag is
documented as requiring a positional target and a unit test expects the
rejection, but the check and the flag's use are absent) — so on a one-tag
repository it proceeds all the way to a create call whose payload carries
`prerelease := false`. -/
theorem c9_mutually_exclusive_option_validation :
    (∀ (target : Str) (template : Option Str) (patterns : IgnorePatterns)
      (repo : Repo) (existing : Str),
      execute_changelog_command ⟨some target, true⟩ template patterns repo existing =
        .error (lit "Cannot combine --rebuild with an explicit changelog target")) ∧
    execute_release_command ⟨none, false, false, false, true⟩ [] repoOneTag
        (some (lit "o", lit "r")) (some (lit "t")) [] =
      .ok [RemoteCall.create ⟨lit "v1.2.3", lit "1.2.3", lit "- fix: a", false, false⟩] ∧
    (∀ (args : ReleaseArgsM) (patterns : IgnorePatterns) (repo : Repo)
      (ownerRepo : Option (Str × Str)) (token : Option Str)
      (existing : List ExistingRelease),
      execute_release_command args patterns repo ownerRepo token existing =
        execute_release_command { args with prerelease := false, target := none }
          patterns repo ownerRepo token existing) := by
  refine ⟨fun target template patterns repo existing => by
    simp [execute_changelog_command], ?_, fun args patterns repo ownerRepo token existing => rfl⟩
  simp [execute_release_command, build_release_candidates, build_release_candidates_aux,
    repoOneTag, collect_releasable_commits, is_ignored, apply_default_sorting, List.mergeSort,
    reconcile_calls, upsert_calls, payloadOf, release_tag, release_title,
    normalize_release_version, render_release_body, startsWith, lit]

/-! ## C10 -/

theorem render_tag_history_aux_eq (repo : Repo) (patterns : IgnorePatterns)
    (template : Option Str) (tags : List GitTag) :
    ∀ previousTagName : Option Str,
      render_tag_history_aux repo patterns template previousTagName tags =
        ((previousTagName :: tags.map fun tag => some tag.name).zip tags).filterMap
          (windowSection repo patterns template) := by
  induction tags with
  | nil => intro prev; simp [render_tag_history_aux]
  | cons tag rest ih =>
    intro prev
    rw [List.map_cons, List.zip_cons_cons, List.filterMap_cons]
    cases hce : (collect_releasable_commits (repo.commitsBetween prev (some tag.name))
        patterns).isEmpty with
    | true =>
      simp only [render_tag_history_aux, hce, if_pos]
      rw [ih (some tag.name)]
      simp [windowSection, hce]
    | false =>
      cases hnv : normalize_tag_version tag.name with
      | some version =>
        simp only [render_tag_history_aux, hce, Bool.false_eq_true, if_false, hnv]
        rw [ih (some tag.name)]
        simp [windowSection, hce, hnv]
      | none =>
        simp only [render_tag_history_aux, hce, Bool.false_eq_true, if_false, hnv]
        rw [ih (some tag.name)]
        simp [windowSection, hce, hnv]

/-- C10: the rebuild iteration renders one section per window of
`tagWindows` — each tag's window bounded below by the tag immediately before
it in the FULL iteration, parsable or not — and a window whose tag name does
not parse contributes no section (its commits are consumed and dropped).  On
the concrete history with tags `v0.1.0`, `not-semver`, `v0.2.0`: the window
of `not-semver` (its commit `feat: dropped`) appears nowhere in the rebuild
output, while `v0.2.0`'s section holds exactly the commits after
`not-semver`. -/
theorem c10_unparsable_tag_windows_dropped :
    (∀ (repo : Repo) (patterns : IgnorePatterns) (template : Option Str),
      render_tag_history_sections repo patterns template =
        (tagWindows repo.tags).filterMap (windowSection repo patterns template)) ∧
    build_rebuild_output repoMixedTags [] none =
      lit "### 1970-01-01 / 0.2.0\n\n- fix: two\n\n### 1970-01-01 / 0.1.0\n\n- fix: one\n" ∧
    containsSub (lit "feat: dropped") (build_rebuild_output repoMixedTags [] none) = false := by
  refine ⟨fun repo patterns template => ?_, ?_, ?_⟩
  · rw [render_tag_history_sections, render_tag_history_aux_eq, tagWindows]
  · simp [build_rebuild_output, render_tag_history_sections, render_tag_history_aux,
      repoMixedTags, read_commits_pending, collect_releasable_commits, is_ignored,
      apply_default_sorting, List.mergeSort, startsWith, lit]
    decide
  · simp [build_rebuild_output, render_tag_history_sections, render_tag_history_aux,
      repoMixedTags, read_commits_pending, collect_releasable_commits, is_ignored,
      apply_default_sorting, List.mergeSort, startsWith, lit]
    decide

/-! ## String lemmas for the heading round-trip (C5, C6) -/

theorem isDigit_bounds {c : Char} (h : c.isDigit = true) :
    48 ≤ c.toNat ∧ c.toNat ≤ 57 := by
  simp only [Char.isDigit, ge_iff_le, Bool.and_eq_true, decide_eq_true_eq] at h
  exact ⟨h.1, h.2⟩

theorem not_ws_of_digit {c : Char} (h : c.isDigit = true) : isUnicodeWs c = false := by
  have hb := isDigit_bounds h
  simp only [isUnicodeWs, Bool.or_eq_false_iff, Bool.and_eq_false_iff,
    beq_eq_false_iff_ne, ne_eq, decide_eq_false_iff_not, not_le, decide_eq_true_eq]
  omega

theorem digit_ne_of_toNat {c : Char} {d : Char} (h : c.isDigit = true)
    (hd : d.toNat < 48 ∨ 57 < d.toNat) : c ≠ d := by
  have hb := isDigit_bounds h
  intro he
  subst he
  omega

theorem digitChar_isDigit {n : Nat} (h : n < 10) : (digitChar n).isDigit = true := by
  interval_cases n <;> decide

theorem natDigitsAux_spec : ∀ fuel n, n ≤ fuel →
    natDigitsAux fuel n ≠ [] ∧ ∀ c ∈ natDigitsAux fuel n, c.isDigit = true := by
  intro fuel
  induction fuel with
  | zero =>
    intro n hn
    have : n = 0 := by omega
    subst this
    exact ⟨by simp [natDigitsAux], by
      intro c hc
      simp only [natDigitsAux, List.mem_singleton] at hc
      subst hc
      exact digitChar_isDigit (by omega)⟩
  | succ fuel ih =>
    intro n hn
    by_cases h10 : n < 10
    · refine ⟨by simp [natDigitsAux, h10], ?_⟩
      intro c hc
      simp only [natDigitsAux, h10, if_pos, List.mem_singleton] at hc
      subst hc
      exact digitChar_isDigit h10
    · have hdiv : n / 10 ≤ fuel := by
        have hlt : n / 10 < n := Nat.div_lt_self (by omega) (by omega)
        omega
      obtain ⟨hne, hdig⟩ := ih (n / 10) hdiv
      refine ⟨by simp [natDigitsAux, h10], ?_⟩
      intro c hc
      simp only [natDigitsAux] at hc
      rw [if_neg h10] at hc
      rcases List.mem_append.mp hc with hc | hc
      · exact hdig c hc
      · simp only [List.mem_singleton] at hc
        subst hc
        exact digitChar_isDigit (Nat.mod_lt n (by omega))

theorem natDigits_ne_nil (n : Nat) : natDigits n ≠ [] :=
  (natDigitsAux_spec n n le_rfl).1

theorem natDigits_digits (n : Nat) : ∀ c ∈ natDigits n, c.isDigit = true :=
  (natDigitsAux_spec n n le_rfl).2

theorem takeWhile_all_append {p : Char → Bool} {xs ys : Str}
    (hxs : ∀ x ∈ xs, p x = true) (hys : ∀ c, ys.head? = some c → p c = false) :
    (xs ++ ys).takeWhile p = xs ∧ (xs ++ ys).dropWhile p = ys := by
  induction xs with
  | nil =>
    cases ys with
    | nil => exact ⟨rfl, rfl⟩
    | cons c cs =>
      have := hys c rfl
      simp [List.takeWhile_cons, List.dropWhile_cons, this]
  | cons x xs ih =>
    have hx := hxs x (List.mem_cons_self x xs)
    have hrest := ih fun a ha => hxs a (List.mem_cons_of_mem x ha)
    simp [List.takeWhile_cons, List.dropWhile_cons, hx, hrest.1, hrest.2]

theorem splitOnChar_not_mem {sep : Char} {xs : Str} (h : sep ∉ xs) :
    splitOnChar sep xs = [xs] := by
  induction xs with
  | nil => rfl
  | cons c cs ih =>
    have hc : (c == sep) = false := by
      simp only [beq_eq_false_iff_ne]
      intro he
      exact h (he ▸ List.mem_cons_self c cs)
    have := ih fun hm => h (List.mem_cons_of_mem c hm)
    simp [splitOnChar, hc, this]

theorem splitOnChar_append_sep {sep : Char} {xs ys : Str} (h : sep ∉ xs) :
    splitOnChar sep (xs ++ sep :: ys) = xs :: splitOnChar sep ys := by
  induction xs with
  | nil => simp [splitOnChar]
  | cons c cs ih =>
    have hc : (c == sep) = false := by
      simp only [beq_eq_false_iff_ne]
      intro he
      exact h (he ▸ List.mem_cons_self c cs)
    have hrec := ih fun hm => h (List.mem_cons_of_mem c hm)
    simp only [List.cons_append, splitOnChar, hc, Bool.false_eq_true, if_false]
    rw [show (cs ++ sep :: ys : Str) = cs.append (sep :: ys) from rfl] at hrec
    rw [hrec]

theorem trimStart_of_head {s : Str} {c : Char} (hhead : s.head? = some c)
    (hc : isUnicodeWs c = false) : trimStart s = s := by
  cases s with
  | nil => rfl
  | cons x xs =>
    cases hhead
    simp [trimStart, List.dropWhile_cons, hc]

theorem trimEnd_append_of_getLast {a b : Str} {c : Char} (hlast : a.getLast? = some c)
    (hc : isUnicodeWs c = false) : trimEnd (a ++ b) = a ++ trimEnd b := by
  have hrev : a.reverse.head? = some c := by
    rw [List.head?_reverse]
    exact hlast
  have hdw : a.reverse.dropWhile isUnicodeWs = a.reverse := by
    cases hra : a.reverse with
    | nil => simp
    | cons x xs =>
      rw [hra] at hrev
      cases hrev
      simp [List.dropWhile_cons, hc]
  unfold trimEnd
  rw [List.reverse_append, List.dropWhile_append]
  cases hemp : (b.reverse.dropWhile isUnicodeWs).isEmpty with
  | true =>
    simp only [if_pos, hdw, List.reverse_reverse]
    rw [List.isEmpty_iff] at hemp
    rw [hemp]
    simp
  | false =>
    simp only [Bool.false_eq_true, if_false]
    rw [List.reverse_append, List.reverse_reverse]

theorem trimEnd_isPrefix (s : Str) : trimEnd s <+: s := by
  have hsuf : s.reverse.dropWhile isUnicodeWs <:+ s.reverse := List.dropWhile_suffix isUnicodeWs
  rw [← List.reverse_suffix]
  simpa [trimEnd] using hsuf

theorem trimEnd_head {s : Str} (h : trimEnd s ≠ []) : (trimEnd s).head? = s.head? := by
  obtain ⟨t, ht⟩ := trimEnd_isPrefix s
  conv_rhs => rw [← ht]
  cases he : trimEnd s with
  | nil => exact absurd he h
  | cons x xs => simp [he]

theorem dropWhile_of_head_false {p : Char → Bool} {s : Str} {c : Char}
    (hh : s.head? = some c) (hc : p c = false) : s.dropWhile p = s := by
  cases s with
  | nil => rfl
  | cons x xs =>
    cases hh
    simp [List.dropWhile_cons, hc]

theorem head_digit_of_all {s : Str} (hne : s ≠ []) (hall : ∀ x ∈ s, x.isDigit = true) :
    ∃ ch, s.head? = some ch ∧ ch.isDigit = true ∧ isUnicodeWs ch = false := by
  cases s with
  | nil => exact absurd rfl hne
  | cons x xs =>
    have hx := hall x (List.mem_cons_self x xs)
    exact ⟨x, rfl, hx, not_ws_of_digit hx⟩

/-- The heading rendered by the default template parses back to its version
capture whenever the date has the `\d{4}-\d{2}-\d{2}` shape and the version
the `[0-9]+\.[0-9]+\.[0-9]+` shape. -/
theorem parseHeadingVersion_heading {y m d a b c : Str}
    (hy : ∀ x ∈ y, x.isDigit = true) (hylen : y.length = 4)
    (hm : ∀ x ∈ m, x.isDigit = true) (hmlen : m.length = 2)
    (hd : ∀ x ∈ d, x.isDigit = true) (hdlen : d.length = 2)
    (ha : ∀ x ∈ a, x.isDigit = true) (ha0 : a ≠ [])
    (hb : ∀ x ∈ b, x.isDigit = true) (hb0 : b ≠ [])
    (hc : ∀ x ∈ c, x.isDigit = true) (hc0 : c ≠ []) :
    parseHeadingVersion
      (lit "### " ++ (y ++ '-' :: m ++ '-' :: d) ++ lit " / " ++ (a ++ '.' :: b ++ '.' :: c)) =
      some (a ++ '.' :: b ++ '.' :: c) := by
  have hy0 : y ≠ [] := by intro he; rw [he] at hylen; cases hylen
  obtain ⟨cy, hcy, hcyd, hcyw⟩ := head_digit_of_all hy0 hy
  obtain ⟨ca, hca, hcad, hcaw⟩ := head_digit_of_all ha0 ha
  have hnotdash : Char.isDigit '-' = false := by decide
  have hnotdot : Char.isDigit '.' = false := by decide
  have hnotsp : Char.isDigit ' ' = false := by decide
  have hT : parseHeadingVersion
      (lit "### " ++ (y ++ '-' :: m ++ '-' :: d) ++ lit " / " ++ (a ++ '.' :: b ++ '.' :: c)) =
      parseHeadingVersion ('#' :: '#' :: '#' :: ' ' ::
        (y ++ '-' :: (m ++ '-' :: (d ++ ' ' :: '/' :: ' ' :: (a ++ '.' :: (b ++ '.' :: c)))))) := by
    simp [lit, List.append_assoc]
  rw [hT]
  have h1 := @takeWhile_all_append Char.isDigit y
    ('-' :: (m ++ '-' :: (d ++ ' ' :: '/' :: ' ' :: (a ++ '.' :: (b ++ '.' :: c)))))
    hy (by intro ch hch; cases hch; exact hnotdash)
  have h2 := @takeWhile_all_append Char.isDigit m
    ('-' :: (d ++ ' ' :: '/' :: ' ' :: (a ++ '.' :: (b ++ '.' :: c))))
    hm (by intro ch hch; cases hch; exact hnotdash)
  have h3 := @takeWhile_all_append Char.isDigit d
    (' ' :: '/' :: ' ' :: (a ++ '.' :: (b ++ '.' :: c)))
    hd (by intro ch hch; cases hch; exact hnotsp)
  have h4 := @takeWhile_all_append Char.isDigit a
    ('.' :: (b ++ '.' :: c))
    ha (by intro ch hch; cases hch; exact hnotdot)
  have h5 := @takeWhile_all_append Char.isDigit b
    ('.' :: c)
    hb (by intro ch hch; cases hch; exact hnotdot)
  have h6tw : c.takeWhile Char.isDigit = c := List.takeWhile_eq_self_iff.mpr hc
  have h6dw : c.dropWhile Char.isDigit = [] := List.dropWhile_eq_nil_iff.mpr hc
  have hdw0 : ((y ++ '-' :: (m ++ '-' :: (d ++ ' ' :: '/' :: ' ' ::
      (a ++ '.' :: (b ++ '.' :: c)))))).dropWhile isUnicodeWs =
      y ++ '-' :: (m ++ '-' :: (d ++ ' ' :: '/' :: ' ' :: (a ++ '.' :: (b ++ '.' :: c)))) := by
    apply dropWhile_of_head_false ?_ hcyw
    cases hy0e : y with
    | nil => exact absurd hy0e hy0
    | cons z zs => rw [hy0e] at hcy; simpa [hy0e] using hcy
  have hdwV : (a ++ '.' :: (b ++ '.' :: c)).dropWhile isUnicodeWs =
      a ++ '.' :: (b ++ '.' :: c) := by
    apply dropWhile_of_head_false ?_ hcaw
    cases ha0e : a with
    | nil => exact absurd ha0e ha0
    | cons z zs => rw [ha0e] at hca; simpa [ha0e] using hca
  simp only [parseHeadingVersion, List.takeWhile_cons, show isUnicodeWs ' ' = true from rfl,
    if_pos, List.dropWhile_cons, hdw0]
  have e1 : parseDigitsN 4
      (y ++ '-' :: (m ++ '-' :: (d ++ ' ' :: '/' :: ' ' :: (a ++ '.' :: (b ++ '.' :: c))))) =
      some ('-' :: (m ++ '-' :: (d ++ ' ' :: '/' :: ' ' :: (a ++ '.' :: (b ++ '.' :: c))))) := by
    simp [parseDigitsN, h1.1, h1.2, hylen]
  have e3 : parseDigitsN 2 (m ++ '-' :: (d ++ ' ' :: '/' :: ' ' :: (a ++ '.' :: (b ++ '.' :: c)))) =
      some ('-' :: (d ++ ' ' :: '/' :: ' ' :: (a ++ '.' :: (b ++ '.' :: c)))) := by
    simp [parseDigitsN, h2.1, h2.2, hmlen]
  have e5 : parseDigitsN 2 (d ++ ' ' :: '/' :: ' ' :: (a ++ '.' :: (b ++ '.' :: c))) =
      some (' ' :: '/' :: ' ' :: (a ++ '.' :: (b ++ '.' :: c))) := by
    simp [parseDigitsN, h3.1, h3.2, hdlen]
  have e6 : (' ' :: '/' :: ' ' :: (a ++ '.' :: (b ++ '.' :: c))).dropWhile isUnicodeWs =
      '/' :: ' ' :: (a ++ '.' :: (b ++ '.' :: c)) := by
    rw [List.dropWhile_cons, if_pos (show isUnicodeWs ' ' = true from rfl),
      List.dropWhile_cons, if_neg (show ¬ isUnicodeWs '/' = true from by decide)]
  have e8 : (' ' :: (a ++ '.' :: (b ++ '.' :: c))).dropWhile isUnicodeWs =
      a ++ '.' :: (b ++ '.' :: c) := by
    simp only [List.dropWhile_cons, show isUnicodeWs ' ' = true from rfl, if_pos, hdwV]
  have e9 : parseDigits1 (a ++ '.' :: (b ++ '.' :: c)) =
      some (a, '.' :: (b ++ '.' :: c)) := by
    simp [parseDigits1, h4.1, h4.2, ha0]
  have e11 : parseDigits1 (b ++ '.' :: c) = some (b, '.' :: c) := by
    simp [parseDigits1, h5.1, h5.2, hb0]
  have e13 : parseDigits1 c = some (c, ([] : Str)) := by
    simp [parseDigits1, h6tw, h6dw, hc0]
  simp only [e1, e3, e5, e6, e8, e9, e11, e13, Option.some_bind, expectChar,
    show ('-' == '-') = true from rfl, show ('/' == '/') = true from rfl,
    show ('.' == '.') = true from rfl, if_pos]
  simp

theorem heading_no_newline {y m d a b c : Str}
    (hy : ∀ x ∈ y, x.isDigit = true) (hm : ∀ x ∈ m, x.isDigit = true)
    (hd : ∀ x ∈ d, x.isDigit = true) (ha : ∀ x ∈ a, x.isDigit = true)
    (hb : ∀ x ∈ b, x.isDigit = true) (hc : ∀ x ∈ c, x.isDigit = true) :
    '\n' ∉ lit "### " ++ (y ++ '-' :: m ++ '-' :: d) ++ lit " / " ++ (a ++ '.' :: b ++ '.' :: c) := by
  intro h
  have hnl : Char.isDigit '\n' = false := by decide
  have hyn : '\n' ∉ y := fun hmem => by rw [hy _ hmem] at hnl; cases hnl
  have hmn : '\n' ∉ m := fun hmem => by rw [hm _ hmem] at hnl; cases hnl
  have hdn : '\n' ∉ d := fun hmem => by rw [hd _ hmem] at hnl; cases hnl
  have han : '\n' ∉ a := fun hmem => by rw [ha _ hmem] at hnl; cases hnl
  have hbn : '\n' ∉ b := fun hmem => by rw [hb _ hmem] at hnl; cases hnl
  have hcn : '\n' ∉ c := fun hmem => by rw [hc _ hmem] at hnl; cases hnl
  simp [lit, List.mem_append, List.mem_cons, hyn, hmn, hdn, han, hbn, hcn] at h

theorem mem_extract_versions_of_heading {doc H rest v : Str} (hdoc : doc = H ++ rest)
    (hH : '\n' ∉ H) (hrest : rest = [] ∨ ∃ r, rest = '\n' :: r)
    (hparse : parseHeadingVersion H = some v) : v ∈ extract_versions doc := by
  subst hdoc
  rcases hrest with rfl | ⟨r, rfl⟩
  · rw [List.append_nil, extract_versions, splitLines, splitOnChar_not_mem hH,
      List.filterMap_cons, hparse]
    exact List.mem_cons_self v _
  · rw [extract_versions, splitLines, splitOnChar_append_sep hH, List.filterMap_cons, hparse]
    exact List.mem_cons_self v _

theorem render_section_default_decomp {date ver : Str} {commits : List Str} {ch : Char}
    (hlast : ver.getLast? = some ch) (hw : isUnicodeWs ch = false) :
    ∃ tail : Str, render_section ⟨date, ver, commits⟩ none =
      (lit "### " ++ date ++ lit " / " ++ ver) ++ tail ∧
      (tail = [] ∨ tail.head? = some '\n') := by
  have hver0 : ver ≠ [] := by
    intro he
    rw [he] at hlast
    cases hlast
  refine ⟨trimEnd (lit "\n\n" ++ (commits.map fun commit => lit "- " ++ commit ++ lit "\n").flatten), ?_, ?_⟩
  · show trim _ = _
    unfold trim
    have hts : trimStart (lit "### " ++ date ++ lit " / " ++ ver ++ lit "\n\n" ++
        (commits.map fun commit => lit "- " ++ commit ++ lit "\n").flatten) =
        lit "### " ++ date ++ lit " / " ++ ver ++ lit "\n\n" ++
        (commits.map fun commit => lit "- " ++ commit ++ lit "\n").flatten :=
      trimStart_of_head rfl (by decide)
    rw [hts]
    have hlast2 : (lit "### " ++ date ++ lit " / " ++ ver).getLast? = some ch := by
      rw [List.getLast?_append_of_ne_nil _ hver0, hlast]
    rw [List.append_assoc (lit "### " ++ date ++ lit " / " ++ ver) (lit "\n\n")
      ((commits.map fun commit => lit "- " ++ commit ++ lit "\n").flatten),
      trimEnd_append_of_getLast hlast2 hw]
  · by_cases hnil : trimEnd (lit "\n\n" ++
        (commits.map fun commit => lit "- " ++ commit ++ lit "\n").flatten) = []
    · exact Or.inl hnil
    · refine Or.inr ?_
      rw [trimEnd_head hnil]
      rfl

theorem plainShape_versionToString {v : Version} (hp : v.pre = []) (hb : v.build = []) :
    PlainVersionShape (versionToString v) := by
  refine ⟨natDigits v.major, natDigits v.minor, natDigits v.patch, ?_,
    natDigits_ne_nil _, natDigits_ne_nil _, natDigits_ne_nil _,
    natDigits_digits _, natDigits_digits _, natDigits_digits _⟩
  simp [versionToString, hp, hb]

theorem getLast?_ver_digit {a b c : Str} (hc : ∀ x ∈ c, x.isDigit = true) (hc0 : c ≠ []) :
    ∃ ch, (a ++ '.' :: b ++ '.' :: c).getLast? = some ch ∧ ch.isDigit = true ∧
      isUnicodeWs ch = false := by
  cases hcl : c.getLast? with
  | none =>
    rw [List.getLast?_eq_none_iff] at hcl
    exact absurd hcl hc0
  | some ch =>
    have hchmem : ch ∈ c := List.mem_of_mem_getLast? hcl
    have hchd := hc ch hchmem
    refine ⟨ch, ?_, hchd, not_ws_of_digit hchd⟩
    rw [List.getLast?_append_of_ne_nil _ (by simp : ('.' :: c : Str) ≠ []),
      show ('.' :: c : Str) = ['.'] ++ c from rfl, List.getLast?_append_of_ne_nil _ hc0, hcl]

/-- C6: the claim universally asserts
`section.version ∈ extractVersions(render(section))` for the default
template; it fails when the version carries a pre-release suffix (reachable:
an explicit target or a pre-release tag), since the heading pattern captures
only plain `major.minor.patch` text. -/
theorem c6_counterexample_prerelease_version :
    lit "1.0.0-rc1" ∉ extract_versions
      (render_section ⟨lit "2026-02-22", lit "1.0.0-rc1", [lit "feat: add"]⟩ none) := by
  decide

/-- C6 (amended): for every section whose date has the `YYYY-MM-DD` digit
shape and whose version string is plain `major.minor.patch` digits — the
shape `versionToString` produces exactly when the version has no pre-release
and no build suffix — the rendered default-template markdown round-trips:
the section's version is among the versions extracted from it. -/
theorem c6_extract_render_roundtrip :
    (∀ v : Version, v.pre = [] → v.build = [] → PlainVersionShape (versionToString v)) ∧
    (∀ (date ver : Str) (commits : List Str), DateShape date → PlainVersionShape ver →
      ver ∈ extract_versions (render_section ⟨date, ver, commits⟩ none)) := by
  refine ⟨fun v hp hb => plainShape_versionToString hp hb, ?_⟩
  intro date ver commits hdate hver
  obtain ⟨y, m, d, rfl, hylen, hmlen, hdlen, hy, hm, hd⟩ := hdate
  obtain ⟨a, b, c, rfl, ha0, hb0, hc0, ha, hb, hc⟩ := hver
  obtain ⟨ch, hlast, hchd, hchw⟩ := getLast?_ver_digit hc hc0
  obtain ⟨tail, hrender, htail⟩ := render_section_default_decomp hlast hchw
  have hrest : tail = [] ∨ ∃ r, tail = '\n' :: r := by
    rcases htail with h | h
    · exact Or.inl h
    · right
      cases tail with
      | nil => cases h
      | cons t ts =>
        simp only [List.head?_cons, Option.some.injEq] at h
        exact ⟨ts, by rw [h]⟩
  exact mem_extract_versions_of_heading hrender
    (heading_no_newline hy hm hd ha hb hc) hrest
    (parseHeadingVersion_heading hy hylen hm hmlen hd hdlen ha ha0 hb hb0 hc hc0)

/-- C6 witness: the round-trip at a concrete well-shaped section. -/
theorem c6_extract_render_roundtrip_witness :
    lit "1.2.3" ∈ extract_versions
      (render_section ⟨lit "2026-02-22", lit "1.2.3", [lit "feat: add"]⟩ none) :=
  c6_extract_render_roundtrip.2 (lit "2026-02-22") (lit "1.2.3") [lit "feat: add"]
    ⟨lit "2026", lit "02", lit "22", by decide, by decide, by decide, by decide,
      by decide, by decide, by decide⟩
    ⟨lit "1", lit "2", lit "3", by decide, by decide, by decide, by decide,
      by decide, by decide, by decide⟩

/-! ## C5 -/

theorem execute_changelog_nonrebuild (target : Option Str) (template : Option Str)
    (patterns : IgnorePatterns) (repo : Repo) (existing : Str) :
    execute_changelog_command ⟨target, false⟩ template patterns repo existing =
      if (sortedReleasable repo patterns).isEmpty then .ok none
      else
        match changelogNextVersion repo patterns target with
        | .error e => .error e
        | .ok nextVersion =>
          if (extract_versions existing).contains (versionToString nextVersion) then .ok none
          else
            .ok (some (with_prepended_section existing (render_section
              ⟨format_date (((sortedReleasable repo patterns).head?.map GitCommit.time).getD 0),
               versionToString nextVersion,
               (sortedReleasable repo patterns).map GitCommit.subject⟩ template))) := by
  simp only [execute_changelog_command, Bool.false_and, Bool.false_eq_true, if_false]

theorem with_prepended_section_decomp (existing sectionMarkdown : Str) :
    ∃ rest : Str, with_prepended_section existing sectionMarkdown =
      sectionMarkdown ++ rest ∧ rest.head? = some '\n' := by
  unfold with_prepended_section
  by_cases he : trim existing = []
  · exact ⟨lit "\n", by simp [he], rfl⟩
  · refine ⟨lit "\n\n" ++ trim existing ++ lit "\n", ?_, rfl⟩
    simp only [he, Bool.false_eq_true, if_neg, List.append_assoc]
    simp [he]

/-- C5: the claim asserts the guard skip AND that composing twice is always
byte-identical.  The second half fails on a reachable input: with the newest
tag `v1.2.3-rc` (a valid semver pre-release), the computed next version
`1.2.4-rc` never matches the heading-extraction pattern, so the second run
prepends the same section again instead of skipping. -/
theorem c5_counterexample_prerelease_not_idempotent :
    execute_changelog_command ⟨none, false⟩ none [] repoPreTag (lit "") =
      .ok (some (lit "### 1970-01-01 / 1.2.4-rc\n\n- fix: a\n")) ∧
    execute_changelog_command ⟨none, false⟩ none [] repoPreTag
        (lit "### 1970-01-01 / 1.2.4-rc\n\n- fix: a\n") =
      .ok (some (lit "### 1970-01-01 / 1.2.4-rc\n\n- fix: a\n\n### 1970-01-01 / 1.2.4-rc\n\n- fix: a\n")) ∧
    lit "### 1970-01-01 / 1.2.4-rc\n\n- fix: a\n" ≠
      lit "### 1970-01-01 / 1.2.4-rc\n\n- fix: a\n\n### 1970-01-01 / 1.2.4-rc\n\n- fix: a\n" := by
  have h1 : sortedReleasable repoPreTag [] = [⟨lit "fix: a", [], 0⟩] := by
    have hcol : collect_releasable_commits (read_commits_pending repoPreTag) [] =
        [⟨lit "fix: a", [], 0⟩] := by decide
    rw [sortedReleasable, hcol, apply_default_sorting]
    exact List.mergeSort_singleton _
  have h2 : changelogNextVersion repoPreTag [] none = .ok ⟨1, 2, 4, lit "rc", []⟩ := by
    rw [changelogNextVersion]
    simp only [h1]
    decide
  refine ⟨?_, ?_, by decide⟩ <;>
    (rw [execute_changelog_nonrebuild]; simp only [h1, h2]; decide)

/-- C5 (amended): when the computed next version already appears among the
versions extracted from the existing document, the command performs no write
(any template); and a second run on the first run's output performs no write
— so two runs are byte-identical — provided the default template is in use,
the next version is plain numeric (no pre-release/build), and the rendered
date has the `YYYY-MM-DD` digit shape (true of every timestamp the calendar
can render with a four-digit year). -/
theorem c5_changelog_idempotence (patterns : IgnorePatterns) (repo : Repo)
    (target : Option Str) (v : Version)
    (hnext : changelogNextVersion repo patterns target = .ok v) :
    (∀ (template : Option Str) (existing : Str),
      versionToString v ∈ extract_versions existing →
      execute_changelog_command ⟨target, false⟩ template patterns repo existing = .ok none) ∧
    (∀ existing d1 : Str,
      execute_changelog_command ⟨target, false⟩ none patterns repo existing = .ok (some d1) →
      v.pre = [] → v.build = [] →
      DateShape (format_date (((sortedReleasable repo patterns).head?.map GitCommit.time).getD 0)) →
      execute_changelog_command ⟨target, false⟩ none patterns repo d1 = .ok none) := by
  constructor
  · intro template existing hmem
    rw [execute_changelog_nonrebuild]
    cases hempty : (sortedReleasable repo patterns).isEmpty with
    | true => rw [if_pos rfl]
    | false =>
      rw [if_neg (by simp [hempty])]
      simp only [hnext]
      have hcont : (extract_versions existing).contains (versionToString v) = true := by
        simpa using hmem
      rw [if_pos hcont]
  · intro existing d1 hrun hp hb hds
    rw [execute_changelog_nonrebuild] at hrun
    cases hempty : (sortedReleasable repo patterns).isEmpty with
    | true => rw [if_pos (by simp [hempty])] at hrun; cases hrun
    | false =>
      rw [if_neg (by simp [hempty])] at hrun
      simp only [hnext] at hrun
      cases hcont : (extract_versions existing).contains (versionToString v) with
      | true => rw [if_pos hcont] at hrun; cases hrun
      | false =>
        rw [if_neg (by rw [hcont]; simp)] at hrun
        have hd1 : d1 = with_prepended_section existing (render_section
            ⟨format_date (((sortedReleasable repo patterns).head?.map GitCommit.time).getD 0),
             versionToString v,
             (sortedReleasable repo patterns).map GitCommit.subject⟩ none) := by
          cases hrun
          rfl
        obtain ⟨y, m, d, hdate, hylen, hmlen, hdlen, hy, hm, hd⟩ := hds
        obtain ⟨a, b, c, hver, ha0, hb0, hc0, ha, hb, hc⟩ := plainShape_versionToString hp hb
        obtain ⟨ch, hlast, hchd, hchw⟩ := getLast?_ver_digit hc hc0
        rw [← hver] at hlast
        obtain ⟨tail, hrender, htail⟩ := @render_section_default_decomp
          (format_date (((sortedReleasable repo patterns).head?.map GitCommit.time).getD 0))
          (versionToString v) ((sortedReleasable repo patterns).map GitCommit.subject)
          ch hlast hchw
        obtain ⟨rest, hprep, hresthead⟩ := with_prepended_section_decomp existing (render_section
          ⟨format_date (((sortedReleasable repo patterns).head?.map GitCommit.time).getD 0),
           versionToString v,
           (sortedReleasable repo patterns).map GitCommit.subject⟩ none)
        have hmem2 : versionToString v ∈ extract_versions d1 := by
          rw [hver]
          apply @mem_extract_versions_of_heading d1
            (lit "### " ++ (y ++ '-' :: m ++ '-' :: d) ++ lit " / " ++
              (a ++ '.' :: b ++ '.' :: c))
            (tail ++ rest) (a ++ '.' :: b ++ '.' :: c)
            ?_ (heading_no_newline hy hm hd ha hb hc) ?_
            (parseHeadingVersion_heading hy hylen hm hmlen hd hdlen ha ha0 hb hb0 hc hc0)
          · rw [hd1, hprep, hrender, List.append_assoc, hdate, hver]
          · rcases htail with ht | ht
            · right
              cases rest with
              | nil => cases hresthead
              | cons r rs =>
                simp only [List.head?_cons, Option.some.injEq] at hresthead
                exact ⟨rs, by rw [ht, List.nil_append, hresthead]⟩
            · right
              cases tail with
              | nil => cases ht
              | cons t ts =>
                simp only [List.head?_cons, Option.some.injEq] at ht
                exact ⟨ts ++ rest, by rw [ht]; rfl⟩
        rw [execute_changelog_nonrebuild, if_neg (by simp [hempty])]
        simp only [hnext]
        rw [if_pos (by simpa using hmem2)]

/-- C5 witness: on the one-tag repository the second run after a first run is
a no-op, and the guard skips when the version heading is already present. -/
theorem c5_changelog_idempotence_witness :
    execute_changelog_command ⟨none, false⟩ none [] repoOneTag
      (lit "### 1970-01-01 / 1.2.4\n\n- fix: a\n") = .ok none := by
  have h1 : sortedReleasable repoOneTag [] = [⟨lit "fix: a", [], 0⟩] := by
    have hcol : collect_releasable_commits (read_commits_pending repoOneTag) [] =
        [⟨lit "fix: a", [], 0⟩] := by decide
    rw [sortedReleasable, hcol, apply_default_sorting]
    exact List.mergeSort_singleton _
  have h2 : changelogNextVersion repoOneTag [] none = .ok ⟨1, 2, 4, [], []⟩ := by
    rw [changelogNextVersion]
    simp only [h1]
    decide
  exact (c5_changelog_idempotence [] repoOneTag none ⟨1, 2, 4, [], []⟩ h2).1 none
    (lit "### 1970-01-01 / 1.2.4\n\n- fix: a\n") (by decide)

end Cambi
